import Mathlib

/-!
Verification of `google/api_core/rest_streaming.py` (class `ResponseIterator`).

The Python class is a character-by-character boundary scanner over an
arbitrarily chunked text stream that is expected to spell out a JSON array of
objects, together with a pull-based iterator that hands completed object texts
to a decoder.  Its whole mutable state is the quadruple
`(_level, _in_string, _obj, _ready_objs)`; we embed it as `ScanState` below and
translate each method of the class into a pure function on that state.
-/

/-- The mutable scanner state of `ResponseIterator`:
`_level` (brace/bracket nesting), `_in_string` (inside a string literal),
`_obj` (text of the object currently being accumulated) and
`_ready_objs` (queue of completed object texts, appended at the back). -/
structure ScanState where
  level : Int
  inString : Bool
  obj : List Char
  ready : List (List Char)
deriving DecidableEq, Repr

/-- The scanner state right after `__init__`. -/
def initState : ScanState := ⟨0, false, [], []⟩

/-- Python's `string.whitespace`: space, tab, newline, carriage return,
vertical tab (11) and form feed (12). -/
def isPyWhitespace (c : Char) : Bool :=
  c == ' ' || c == '\t' || c == '\n' || c == '\r' ||
    c == Char.ofNat 11 || c == Char.ofNat 12

/-- One iteration of the `for char in chunk` loop of `_process_chunk`,
translated branch by branch from the Python `if/elif` chain. -/
def processChar (st : ScanState) (c : Char) : ScanState :=
  if c = '{' then
    -- `if self._level == 1: self._obj = ""` happens before the append
    let obj0 := if st.level = 1 then [] else st.obj
    { st with
      level := if st.inString then st.level else st.level + 1,
      obj := obj0 ++ [c] }
  else if c = '"' then
    { st with inString := !st.inString, obj := st.obj ++ [c] }
  else if c = '}' then
    let obj1 := st.obj ++ [c]
    let lvl1 := if st.inString then st.level else st.level - 1
    { st with
      level := lvl1,
      obj := obj1,
      ready := if st.inString = false ∧ lvl1 = 1 then st.ready ++ [obj1] else st.ready }
  else if isPyWhitespace c then
    if st.inString then { st with obj := st.obj ++ [c] } else st
  else if c = '[' then
    { st with level := st.level + 1 }
  else if c = ']' then
    { st with level := st.level - 1 }
  else
    { st with obj := st.obj ++ [c] }

/-- The character loop of `_process_chunk` over a whole fragment. -/
def scanChunk (st : ScanState) (chunk : List Char) : ScanState :=
  chunk.foldl processChar st

/-- The exceptions `_process_chunk` can raise: the `ValueError` carrying the
offending fragment, and the `IndexError` raised by `chunk[0]` on an empty
fragment while `_level == 0`. -/
inductive StreamError where
  | malformed (chunk : List Char)
  | indexError
deriving DecidableEq, Repr

/-- `_process_chunk`: when `_level == 0` the first character of the fragment is
inspected (raising `IndexError` on an empty fragment) and must be `[`,
otherwise a `ValueError` naming the fragment is raised; then the character
loop runs.  An error carries the state at the moment of the raise, which in
the Python code is the state as it was on entry (the check precedes the loop). -/
def processChunk (st : ScanState) (chunk : List Char) :
    Except (StreamError × ScanState) ScanState :=
  if st.level = 0 then
    match chunk with
    | [] => .error (.indexError, st)
    | c :: _ =>
      if c = '[' then .ok (scanChunk st chunk) else .error (.malformed chunk, st)
  else .ok (scanChunk st chunk)

/-- Feeding a list of fragments to `_process_chunk` one after the other. -/
def runChunks (st : ScanState) (chunks : List (List Char)) :
    Except (StreamError × ScanState) ScanState :=
  match chunks with
  | [] => .ok st
  | c :: cs =>
    match processChunk st c with
    | .ok st' => runChunks st' cs
    | .error e => .error e

/-- Outcome of one `__next__` call, before the decode step of `_grab`:
a dequeued object text together with the successor state, normal end of
iteration (`StopIteration`), or a propagated `_process_chunk` exception. -/
inductive NextOut where
  | value (obj : List Char) (scan : ScanState) (source : List (List Char))
  | stop
  | fail (e : StreamError) (scan : ScanState) (source : List (List Char))
deriving DecidableEq, Repr

/-- The `while not self._ready_objs` loop of `__next__` together with the
dequeue of `_grab`: while the queue is empty, pull the next fragment and feed
it to `_process_chunk`; once the queue is non-empty, pop its front.
The underlying `requests` response is external to this repository; we model
its fragment iterator as the list `source`, its exhaustion as `[]`, and — per
the spec's ChunkSource contract — a closed response as one that yields no
further fragments. -/
def nextLoop : ScanState → Bool → List (List Char) → NextOut
  | scan, _, [] =>
    match scan.ready with
    | o :: rest => .value o { scan with ready := rest } []
    | [] => .stop
  | scan, closed, c :: cs =>
    match scan.ready with
    | o :: rest => .value o { scan with ready := rest } (c :: cs)
    | [] =>
      if closed then .stop
      else
        match processChunk scan c with
        | .ok st' => nextLoop st' closed cs
        | .error e => .fail e.1 e.2 cs

/-- Repeated `__next__` calls until `StopIteration` or an exception, collecting
the dequeued object texts in order.  `fuel` bounds the number of calls; `none`
means the fuel ran out (the adequacy lemma below shows how much is enough). -/
def drain : Nat → ScanState → Bool → List (List Char) →
    Option (List (List Char) ⊕ (StreamError × ScanState))
  | 0, _, _, _ => none
  | fuel + 1, scan, closed, source =>
    match nextLoop scan closed source with
    | .stop => some (.inl [])
    | .fail e st _ => some (.inr (e, st))
    | .value o st src =>
      match drain fuel st closed src with
      | none => none
      | some (.inl rest) => some (.inl (o :: rest))
      | some (.inr err) => some (.inr err)

/-- The full iterator state: the fragments the transport will still yield,
whether `cancel()` has closed the response, and the scanner state. -/
structure IterState where
  source : List (List Char)
  closed : Bool
  scan : ScanState
deriving DecidableEq, Repr

/-- `cancel()`: the Python body is exactly `self._response.close()`.  It
touches none of the scanner fields; closing an already closed response is a
no-op in `requests`, so we model it as setting the `closed` flag. -/
def cancel (it : IterState) : IterState := { it with closed := true }

/-- JSON whitespace as skipped by Python's `json.loads` around a document. -/
def isJsonWs (c : Char) : Bool :=
  c == ' ' || c == '\t' || c == '\n' || c == '\r'

/-- Value of a hexadecimal digit, for `\uXXXX` escapes. -/
def hexVal (c : Char) : Option Nat :=
  if '0' ≤ c ∧ c ≤ '9' then some (c.toNat - '0'.toNat)
  else if 'a' ≤ c ∧ c ≤ 'f' then some (c.toNat - 'a'.toNat + 10)
  else if 'A' ≤ c ∧ c ≤ 'F' then some (c.toNat - 'A'.toNat + 10)
  else none

/-- The single-character escapes of a JSON string literal. -/
def escChar (c : Char) : Option Char :=
  if c = '"' then some '"'
  else if c = '\\' then some '\\'
  else if c = '/' then some '/'
  else if c = 'b' then some (Char.ofNat 8)
  else if c = 'f' then some (Char.ofNat 12)
  else if c = 'n' then some '\n'
  else if c = 'r' then some '\r'
  else if c = 't' then some '\t'
  else none

/-- Body of a JSON string literal after the opening quote, as parsed by
Python's `json` module: returns the decoded content and the input remaining
after the closing quote; `none` models a `JSONDecodeError` (unterminated
string, literal control character, or invalid escape).  `\uXXXX` escapes of
non-surrogate code points are decoded; surrogate-pair recombination is beyond
what any theorem here evaluates and is not modelled. -/
def parseJsonStringBody : List Char → Option (List Char × List Char)
  | [] => none
  | '"' :: rest => some ([], rest)
  | '\\' :: 'u' :: h1 :: h2 :: h3 :: h4 :: rest2 =>
    match hexVal h1, hexVal h2, hexVal h3, hexVal h4 with
    | some a, some b, some c2, some d =>
      match parseJsonStringBody rest2 with
      | some (s, r) => some (Char.ofNat (((a * 16 + b) * 16 + c2) * 16 + d) :: s, r)
      | none => none
    | _, _, _, _ => none
  | '\\' :: e :: rest' =>
    match escChar e with
    | some ec =>
      match parseJsonStringBody rest' with
      | some (s, r) => some (ec :: s, r)
      | none => none
    | none => none
  | ['\\'] => none
  | c :: rest =>
    if c.toNat < 32 then none
    else
      match parseJsonStringBody rest with
      | some (s, r) => some (c :: s, r)
      | none => none

/-- Python's `json.loads` on a document whose first value is a string literal —
the only shape `_grab` ever constructs (`'"' + obj + '"'`).  The whole
document must be one string literal, possibly surrounded by whitespace;
anything after it is the `Extra data` error, modelled as `none`. -/
def jsonLoadsString (doc : List Char) : Option (List Char) :=
  match doc.dropWhile isJsonWs with
  | [] => none
  | c :: rest =>
    if c = '"' then
      match parseJsonStringBody rest with
      | some (s, r) => if (r.dropWhile isJsonWs).isEmpty then some s else none
      | none => none
    else none

/-- The exceptions `_grab` can raise: `IndexError` on an empty queue, and the
`JSONDecodeError` of `json.loads('"' + obj + '"')`. -/
inductive GrabError where
  | emptyQueue
  | jsonDecodeError (obj : List Char)
deriving DecidableEq, Repr

/-- `_grab`: pop the front of `_ready_objs` (the pop happens before the decode,
so a decode error leaves the object already dequeued), wrap the text in
quotes, run it through `json.loads`, and hand the result to the caller's
`response_message_cls.from_json` — the pluggable decoder `dec`. -/
def grab {α : Type} (dec : List Char → α) (st : ScanState) :
    Except (GrabError × ScanState) (α × ScanState) :=
  match st.ready with
  | [] => .error (.emptyQueue, st)
  | o :: rest =>
    let st' := { st with ready := rest }
    match jsonLoadsString ('"' :: (o ++ ['"'])) with
    | none => .error (.jsonDecodeError o, st')
    | some s => .ok (dec s, st')

/-! ### A grammar of scanner-clean JSON array texts

The claims quantify over well-formed JSON arrays of objects.  The grammar
below generates the texts of balanced objects in the sense of the spec's
CompletedObject ("a syntactically balanced `{...}` span as tracked by
brace/string-state counting"), restricted to the inputs the scanner handles
faithfully: string literals without backslash escapes and without square
brackets, no square brackets outside strings (no nested arrays), and no
whitespace outside string literals inside an element.  Every well-formed
JSON object text obeying these restrictions is generated: keys and string
values are `str` steps, the punctuation `:`/`,` and number/keyword literals
are `plain` steps, nested objects are `nest` steps. -/

/-- Characters allowed inside a string literal of the restricted grammar:
anything except the closing quote, backslash escapes and square brackets
(braces and whitespace are allowed — the scanner keeps them verbatim). -/
def StrChar (c : Char) : Prop := c ≠ '"' ∧ c ≠ '\\' ∧ c ≠ '[' ∧ c ≠ ']'

instance (c : Char) : Decidable (StrChar c) := by unfold StrChar; infer_instance

/-- Characters of an object body that are not structure and not whitespace:
digits, letters, `:`, `,`, signs, dots, … -/
def PlainChar (c : Char) : Prop :=
  c ≠ '{' ∧ c ≠ '"' ∧ c ≠ '}' ∧ isPyWhitespace c = false ∧ c ≠ '[' ∧ c ≠ ']'

instance (c : Char) : Decidable (PlainChar c) := by unfold PlainChar; infer_instance

/-- The text between `{` and `}` of an element: a balanced, scanner-clean
object body. -/
inductive Body : List Char → Prop where
  | nil : Body []
  | plain (c : Char) (s : List Char) : PlainChar c → Body s → Body (c :: s)
  | str (t s : List Char) : (∀ c ∈ t, StrChar c) → Body s →
      Body (('"' :: t) ++ ('"' :: s))
  | nest (t s : List Char) : Body t → Body s → Body (('{' :: t) ++ ('}' :: s))

/-- The text of one array element: a balanced object span `{` body `}`. -/
def ElementText (e : List Char) : Prop := ∃ b, Body b ∧ e = ('{' :: b) ++ ['}']

/-- Separator characters between elements: commas and whitespace. -/
def SepChar (c : Char) : Prop := c = ',' ∨ isPyWhitespace c = true

instance (c : Char) : Decidable (SepChar c) := by unfold SepChar; infer_instance

/-- The text strictly between the outer `[` and `]`: elements (in order) glued
by separator characters. -/
inductive ElemSeq : List (List Char) → List Char → Prop where
  | nil (s : List Char) : (∀ c ∈ s, SepChar c) → ElemSeq [] s
  | cons (s e r : List Char) (es : List (List Char)) :
      (∀ c ∈ s, SepChar c) → ElementText e → ElemSeq es r →
      ElemSeq (e :: es) (s ++ (e ++ r))

/-- The whole stream text: `[`, the element sequence, `]`; `es` lists the
element texts in order. -/
def ArrayText (es : List (List Char)) (t : List Char) : Prop :=
  ∃ mid, ElemSeq es mid ∧ t = ('[' :: mid) ++ [']']

/-! ### Per-branch step lemmas for `processChar` -/

theorem step_quote (st : ScanState) :
    processChar st '"' = { st with inString := !st.inString, obj := st.obj ++ ['"'] } := by
  rfl

theorem step_lbrack (st : ScanState) :
    processChar st '[' = { st with level := st.level + 1 } := by
  rfl

theorem step_rbrack (st : ScanState) :
    processChar st ']' = { st with level := st.level - 1 } := by
  rfl

theorem step_lbrace_top (st : ScanState) (hin : st.inString = false) (hlv : st.level = 1) :
    processChar st '{' = { st with level := 2, obj := ['{'] } := by
  simp [processChar, hin, hlv]

theorem step_lbrace_deep (st : ScanState) (hin : st.inString = false) (hlv : st.level ≠ 1) :
    processChar st '{' = { st with level := st.level + 1, obj := st.obj ++ ['{'] } := by
  simp [processChar, hin, hlv]

theorem step_lbrace_instr (st : ScanState) (hin : st.inString = true) (hlv : st.level ≠ 1) :
    processChar st '{' = { st with obj := st.obj ++ ['{'] } := by
  simp [processChar, hin, hlv]

theorem step_rbrace_out (st : ScanState) (hin : st.inString = false) :
    processChar st '}' =
      { st with
        level := st.level - 1,
        obj := st.obj ++ ['}'],
        ready := if st.level - 1 = 1 then st.ready ++ [st.obj ++ ['}']] else st.ready } := by
  simp [processChar, hin]

theorem step_rbrace_in (st : ScanState) (hin : st.inString = true) :
    processChar st '}' = { st with obj := st.obj ++ ['}'] } := by
  simp [processChar, hin]

theorem ws_cases (c : Char) (hw : isPyWhitespace c = true) :
    c = ' ' ∨ c = '\t' ∨ c = '\n' ∨ c = '\r' ∨ c = Char.ofNat 11 ∨ c = Char.ofNat 12 := by
  unfold isPyWhitespace at hw
  simp only [Bool.or_eq_true, beq_iff_eq] at hw
  tauto

theorem step_ws_in (st : ScanState) (c : Char) (hw : isPyWhitespace c = true)
    (hin : st.inString = true) :
    processChar st c = { st with obj := st.obj ++ [c] } := by
  rcases ws_cases c hw with h | h | h | h | h | h <;> subst h <;> simp [processChar, hin, hw]

theorem step_ws_out (st : ScanState) (c : Char) (hw : isPyWhitespace c = true)
    (hin : st.inString = false) :
    processChar st c = st := by
  rcases ws_cases c hw with h | h | h | h | h | h <;> subst h <;> simp [processChar, hin, hw]

theorem step_other (st : ScanState) (c : Char) (h1 : c ≠ '{') (h2 : c ≠ '"') (h3 : c ≠ '}')
    (h4 : isPyWhitespace c = false) (h5 : c ≠ '[') (h6 : c ≠ ']') :
    processChar st c = { st with obj := st.obj ++ [c] } := by
  simp [processChar, h1, h2, h3, h4, h5, h6]

/-! ### Basic `scanChunk` lemmas -/

theorem scan_nil (st : ScanState) : scanChunk st [] = st := rfl

theorem scan_cons (st : ScanState) (c : Char) (s : List Char) :
    scanChunk st (c :: s) = scanChunk (processChar st c) s := rfl

theorem scan_append (st : ScanState) (a b : List Char) :
    scanChunk st (a ++ b) = scanChunk (scanChunk st a) b := by
  unfold scanChunk
  exact List.foldl_append _ _ _ _

/-- Splitting an equation `p ++ r = x ++ y`: either `p` stops inside `x`, or
`p` swallows all of `x` and the split point lies in `y`. -/
theorem append_split {α : Type} (x : List α) :
    ∀ p r y : List α, p ++ r = x ++ y →
      (∃ s, p ++ s = x) ∨ (∃ s, p = x ++ s ∧ s ++ r = y) := by
  induction x with
  | nil =>
    intro p r y h
    right
    exact ⟨p, rfl, h⟩
  | cons a x ih =>
    intro p r y h
    cases p with
    | nil => exact Or.inl ⟨a :: x, rfl⟩
    | cons b p' =>
      simp only [List.cons_append, List.cons.injEq] at h
      obtain ⟨rfl, h2⟩ := h
      rcases ih p' r y h2 with ⟨s, hs⟩ | ⟨s, hs1, hs2⟩
      · exact Or.inl ⟨s, by simp [← hs]⟩
      · exact Or.inr ⟨s, by simp [hs1], hs2⟩

/-! ### Scanning the grammar pieces -/

/-- Inside a string literal, every scanner-clean character is appended
verbatim and leaves level and string-state alone (braces included, as long as
the level is not 1, where `{` would reset the buffer). -/
theorem scan_instring (s : List Char) :
    ∀ (L : Int) (o : List Char) (r : List (List Char)), L ≠ 1 → (∀ c ∈ s, StrChar c) →
      scanChunk ⟨L, true, o, r⟩ s = ⟨L, true, o ++ s, r⟩ := by
  induction s with
  | nil => intro L o r _ _; simp [scan_nil]
  | cons c cs ih =>
    intro L o r hlv hall
    have hc := hall c (by simp)
    unfold StrChar at hc
    obtain ⟨hq, hbs, hlb, hrb⟩ := hc
    have hstep : processChar ⟨L, true, o, r⟩ c = ⟨L, true, o ++ [c], r⟩ := by
      by_cases h1 : c = '{'
      · subst h1; exact step_lbrace_instr ⟨L, true, o, r⟩ rfl hlv
      · by_cases h3 : c = '}'
        · subst h3; exact step_rbrace_in ⟨L, true, o, r⟩ rfl
        · by_cases hw : isPyWhitespace c = true
          · exact step_ws_in ⟨L, true, o, r⟩ c hw rfl
          · exact step_other ⟨L, true, o, r⟩ c h1 hq h3 (by simpa using hw) hlb hrb
    rw [scan_cons, hstep, ih L (o ++ [c]) r hlv (fun d hd => hall d (by simp [hd]))]
    simp

/-- Scanning a balanced object body from nesting level `L ≥ 2`: the body text
is appended verbatim to the buffer, nothing is pushed onto the queue, and the
level never drops below `L` at any split point. -/
theorem scan_body (b : List Char) (hb : Body b) :
    ∀ (L : Int) (o : List Char) (r : List (List Char)), 2 ≤ L →
      scanChunk ⟨L, false, o, r⟩ b = ⟨L, false, o ++ b, r⟩ ∧
      ∀ p q : List Char, p ++ q = b → L ≤ (scanChunk ⟨L, false, o, r⟩ p).level := by
  induction hb with
  | nil =>
    intro L o r _
    refine ⟨by simp [scan_nil], ?_⟩
    intro p q hpq
    have hp : p = [] := by
      cases p
      · rfl
      · simp at hpq
    subst hp
    simp [scan_nil]
  | plain c s hp hb ih =>
    intro L o r hlv
    unfold PlainChar at hp
    obtain ⟨n1, n2, n3, n4, n5, n6⟩ := hp
    have hstep : processChar ⟨L, false, o, r⟩ c = ⟨L, false, o ++ [c], r⟩ :=
      step_other _ c n1 n2 n3 n4 n5 n6
    obtain ⟨ihf, ihp⟩ := ih L (o ++ [c]) r hlv
    refine ⟨?_, ?_⟩
    · rw [scan_cons, hstep, ihf]
      simp
    · intro p q hpq
      cases p with
      | nil => simp [scan_nil]
      | cons d p' =>
        simp only [List.cons_append, List.cons.injEq] at hpq
        obtain ⟨rfl, hpq2⟩ := hpq
        rw [scan_cons, hstep]
        exact ihp p' q hpq2
  | str t s hstr hb ih =>
    intro L o r hlv
    have hlv1 : L ≠ 1 := by omega
    have hq1 : processChar ⟨L, false, o, r⟩ '"' = ⟨L, true, o ++ ['"'], r⟩ := rfl
    have hfs : scanChunk ⟨L, false, o, r⟩ ('"' :: t) = ⟨L, true, (o ++ ['"']) ++ t, r⟩ := by
      rw [scan_cons, hq1, scan_instring t L (o ++ ['"']) r hlv1 hstr]
    have hq2 : processChar ⟨L, true, (o ++ ['"']) ++ t, r⟩ '"'
        = ⟨L, false, ((o ++ ['"']) ++ t) ++ ['"'], r⟩ := rfl
    obtain ⟨ihf, ihp⟩ := ih L (((o ++ ['"']) ++ t) ++ ['"']) r hlv
    refine ⟨?_, ?_⟩
    · rw [scan_append, hfs, scan_cons, hq2, ihf]
      simp
    · intro p q hpq
      rcases append_split ('"' :: t) p q ('"' :: s) hpq with ⟨w, hw⟩ | ⟨w, rfl, hw2⟩
      · cases p with
        | nil => simp [scan_nil]
        | cons d p' =>
          simp only [List.cons_append, List.cons.injEq] at hw
          obtain ⟨rfl, hw'⟩ := hw
          have hallp : ∀ c ∈ p', StrChar c := by
            intro c hcmem
            exact hstr c (by rw [← hw']; exact List.mem_append_left _ hcmem)
          rw [scan_cons, hq1, scan_instring p' L (o ++ ['"']) r hlv1 hallp]
      · cases w with
        | nil =>
          rw [List.append_nil, hfs]
        | cons d w' =>
          simp only [List.cons_append, List.cons.injEq] at hw2
          obtain ⟨rfl, hw2'⟩ := hw2
          rw [scan_append, hfs, scan_cons, hq2]
          exact ihp w' q hw2'
  | nest t s hbt hbs iht ihs =>
    intro L o r hlv
    have hlv1 : L ≠ 1 := by omega
    have hl1 : processChar ⟨L, false, o, r⟩ '{' = ⟨L + 1, false, o ++ ['{'], r⟩ :=
      step_lbrace_deep _ rfl hlv1
    obtain ⟨ihtf, ihtp⟩ := iht (L + 1) (o ++ ['{']) r (by omega)
    have hft : scanChunk ⟨L, false, o, r⟩ ('{' :: t) = ⟨L + 1, false, (o ++ ['{']) ++ t, r⟩ := by
      rw [scan_cons, hl1, ihtf]
    have hrb : processChar ⟨L + 1, false, (o ++ ['{']) ++ t, r⟩ '}'
        = ⟨L, false, ((o ++ ['{']) ++ t) ++ ['}'], r⟩ := by
      rw [step_rbrace_out _ rfl]
      have he : L + 1 - 1 = L := by ring
      simp [he, hlv1]
    obtain ⟨ihsf, ihsp⟩ := ihs L (((o ++ ['{']) ++ t) ++ ['}']) r hlv
    refine ⟨?_, ?_⟩
    · rw [scan_append, hft, scan_cons, hrb, ihsf]
      simp
    · intro p q hpq
      rcases append_split ('{' :: t) p q ('}' :: s) hpq with ⟨w, hw⟩ | ⟨w, rfl, hw2⟩
      · cases p with
        | nil => simp [scan_nil]
        | cons d p' =>
          simp only [List.cons_append, List.cons.injEq] at hw
          obtain ⟨rfl, hw'⟩ := hw
          rw [scan_cons, hl1]
          exact le_trans (by omega) (ihtp p' w hw')
      · cases w with
        | nil =>
          rw [List.append_nil, hft]
          show L ≤ L + 1
          omega
        | cons d w' =>
          simp only [List.cons_append, List.cons.injEq] at hw2
          obtain ⟨rfl, hw2'⟩ := hw2
          rw [scan_append, hft, scan_cons, hrb]
          exact ihsp w' q hw2'

/-- Separator characters at level 1: whitespace is dropped, commas are
appended to the (soon to be reset) buffer; level, string-state and queue are
untouched. -/
theorem scan_sep (s : List Char) :
    ∀ (o : List Char) (r : List (List Char)), (∀ c ∈ s, SepChar c) →
      ∃ o2, scanChunk ⟨1, false, o, r⟩ s = ⟨1, false, o2, r⟩ := by
  induction s with
  | nil => intro o r _; exact ⟨o, rfl⟩
  | cons c cs ih =>
    intro o r hall
    have hc := hall c (by simp)
    unfold SepChar at hc
    rcases hc with hc | hc
    · subst hc
      have hstep : processChar ⟨1, false, o, r⟩ ',' = ⟨1, false, o ++ [','], r⟩ :=
        step_other _ ',' (by decide) (by decide) (by decide) (by decide) (by decide) (by decide)
      rw [scan_cons, hstep]
      exact ih (o ++ [',']) r (fun d hd => hall d (by simp [hd]))
    · rw [scan_cons, step_ws_out _ c hc rfl]
      exact ih o r (fun d hd => hall d (by simp [hd]))

/-- Scanning one element from level 1: the buffer is reset at the opening
brace, the element text is accumulated verbatim, and at its closing brace it
is pushed onto the queue; the level is back to 1 and never went below 1. -/
theorem scan_element (e : List Char) (he : ElementText e) :
    ∀ (o : List Char) (r : List (List Char)),
      scanChunk ⟨1, false, o, r⟩ e = ⟨1, false, e, r ++ [e]⟩ ∧
      ∀ p q : List Char, p ++ q = e → 1 ≤ (scanChunk ⟨1, false, o, r⟩ p).level := by
  obtain ⟨b, hb, rfl⟩ := he
  intro o r
  have hl1 : processChar ⟨1, false, o, r⟩ '{' = ⟨2, false, ['{'], r⟩ :=
    step_lbrace_top _ rfl rfl
  obtain ⟨hbf, hbp⟩ := scan_body b hb 2 ['{'] r (by omega)
  simp only [List.singleton_append] at hbf
  have hrb : processChar ⟨2, false, '{' :: b, r⟩ '}'
      = ⟨1, false, ('{' :: b) ++ ['}'], r ++ [('{' :: b) ++ ['}']]⟩ := by
    rw [step_rbrace_out _ rfl]
    norm_num
  have hfe : scanChunk ⟨1, false, o, r⟩ ('{' :: b) = ⟨2, false, '{' :: b, r⟩ := by
    rw [scan_cons, hl1, hbf]
  constructor
  · rw [scan_append, hfe, scan_cons, hrb, scan_nil]
  · intro p q hpq
    rcases append_split ('{' :: b) p q ['}'] hpq with ⟨w, hw⟩ | ⟨w, rfl, hw2⟩
    · cases p with
      | nil => simp [scan_nil]
      | cons d p' =>
        simp only [List.cons_append, List.cons.injEq] at hw
        obtain ⟨rfl, hw'⟩ := hw
        rw [scan_cons, hl1]
        exact le_trans (by omega) (hbp p' w hw')
    · cases w with
      | nil =>
        rw [List.append_nil, hfe]
        show (1 : Int) ≤ 2
        omega
      | cons d w' =>
        simp only [List.cons_append, List.cons.injEq] at hw2
        obtain ⟨rfl, hw2'⟩ := hw2
        have hnil : w' = [] ∧ q = [] := by
          cases w' <;> simp_all
        obtain ⟨rfl, rfl⟩ := hnil
        rw [scan_append, hfe, scan_cons, hrb, scan_nil]

/-- Scanning the element sequence of the array body from level 1: every
element text is appended to the queue in order, level returns to 1, and the
level stays at least 1 at every split point. -/
theorem scan_elems (es : List (List Char)) (mid : List Char) (hs : ElemSeq es mid) :
    ∀ (o : List Char) (r : List (List Char)),
      (∃ o2, scanChunk ⟨1, false, o, r⟩ mid = ⟨1, false, o2, r ++ es⟩) ∧
      ∀ p q : List Char, p ++ q = mid → 1 ≤ (scanChunk ⟨1, false, o, r⟩ p).level := by
  induction hs with
  | nil s hsep =>
    intro o r
    constructor
    · obtain ⟨o2, ho2⟩ := scan_sep s o r hsep
      exact ⟨o2, by simp [ho2]⟩
    · intro p q hpq
      have hallp : ∀ c ∈ p, SepChar c := by
        intro c hcmem
        exact hsep c (by rw [← hpq]; exact List.mem_append_left _ hcmem)
      obtain ⟨o2, ho2⟩ := scan_sep p o r hallp
      rw [ho2]
  | cons s e rest es hsep he hseq ih =>
    intro o r
    obtain ⟨o1, ho1⟩ := scan_sep s o r hsep
    obtain ⟨hef, hep⟩ := scan_element e he o1 r
    obtain ⟨ihf, ihp⟩ := ih e (r ++ [e])
    constructor
    · obtain ⟨o2, ho2⟩ := ihf
      refine ⟨o2, ?_⟩
      rw [scan_append, ho1, scan_append, hef, ho2]
      simp
    · intro p q hpq
      rcases append_split s p q (e ++ rest) hpq with ⟨w, hw⟩ | ⟨w, rfl, hw2⟩
      · have hallp : ∀ c ∈ p, SepChar c := by
          intro c hcmem
          exact hsep c (by rw [← hw]; exact List.mem_append_left _ hcmem)
        obtain ⟨o2, ho2⟩ := scan_sep p o r hallp
        rw [ho2]
      · rcases append_split e w q rest hw2 with ⟨w2, hw3⟩ | ⟨w2, rfl, hw4⟩
        · rw [scan_append, ho1]
          exact hep w w2 hw3
        · rw [scan_append, ho1, scan_append, hef]
          exact ihp w2 q hw4

/-- Scanning a whole well-formed array text from the initial state: the queue
ends up holding exactly the element texts in order, the level ends at 0, and
at every split point the level is non-negative — and at least 1 strictly
inside the text. -/
theorem scan_array (t : List Char) (es : List (List Char)) (hA : ArrayText es t) :
    (∃ o2, scanChunk initState t = ⟨0, false, o2, es⟩) ∧
    (∀ p q : List Char, p ++ q = t → 0 ≤ (scanChunk initState p).level) ∧
    (∀ p q : List Char, p ++ q = t → p ≠ [] → q ≠ [] → 1 ≤ (scanChunk initState p).level) := by
  obtain ⟨mid, hseq, rfl⟩ := hA
  have hl : processChar initState '[' = ⟨1, false, [], []⟩ := by
    rw [step_lbrack]
    rfl
  obtain ⟨helf, help⟩ := scan_elems es mid hseq [] []
  obtain ⟨o1, ho1⟩ := helf
  simp only [List.nil_append] at ho1
  have hmidf : scanChunk initState ('[' :: mid) = ⟨1, false, o1, es⟩ := by
    rw [scan_cons, hl, ho1]
  have hrb : processChar ⟨1, false, o1, es⟩ ']' = ⟨0, false, o1, es⟩ := by
    rw [step_rbrack]
    rfl
  refine ⟨⟨o1, ?_⟩, ?_, ?_⟩
  · rw [scan_append, hmidf, scan_cons, hrb, scan_nil]
  · intro p q hpq
    rcases append_split ('[' :: mid) p q [']'] hpq with ⟨w, hw⟩ | ⟨w, rfl, hw2⟩
    · cases p with
      | nil => simp [scan_nil, initState]
      | cons d p' =>
        simp only [List.cons_append, List.cons.injEq] at hw
        obtain ⟨rfl, hw'⟩ := hw
        rw [scan_cons, hl]
        exact le_trans (by omega) (help p' w hw')
    · cases w with
      | nil =>
        rw [List.append_nil, hmidf]
        show (0 : Int) ≤ 1
        omega
      | cons d w' =>
        simp only [List.cons_append, List.cons.injEq] at hw2
        obtain ⟨rfl, hw2'⟩ := hw2
        have hnil : w' = [] ∧ q = [] := by
          cases w' <;> simp_all
        obtain ⟨rfl, rfl⟩ := hnil
        rw [scan_append, hmidf, scan_cons, hrb, scan_nil]
  · intro p q hpq hpne hqne
    rcases append_split ('[' :: mid) p q [']'] hpq with ⟨w, hw⟩ | ⟨w, rfl, hw2⟩
    · cases p with
      | nil => exact absurd rfl hpne
      | cons d p' =>
        simp only [List.cons_append, List.cons.injEq] at hw
        obtain ⟨rfl, hw'⟩ := hw
        rw [scan_cons, hl]
        exact help p' w hw'
    · cases w with
      | nil =>
        rw [List.append_nil, hmidf]
      | cons d w' =>
        simp only [List.cons_append, List.cons.injEq] at hw2
        obtain ⟨rfl, hw2'⟩ := hw2
        have hnil : w' = [] ∧ q = [] := by
          cases w' <;> simp_all
        obtain ⟨rfl, rfl⟩ := hnil
        exact absurd rfl hqne

/-! ### Fragment-boundary machinery -/

/-- The `_level == 0` check passes when the level is non-zero or the fragment
starts with `[`. -/
theorem pc_ok (st : ScanState) (chunk : List Char)
    (h : st.level ≠ 0 ∨ chunk.head? = some '[') :
    processChunk st chunk = .ok (scanChunk st chunk) := by
  unfold processChunk
  by_cases hl : st.level = 0
  · rcases h with h | h
    · exact absurd hl h
    · cases chunk with
      | nil => simp at h
      | cons c cs =>
        simp only [List.head?_cons, Option.some.injEq] at h
        subst h
        simp [hl]
  · simp [hl]

/-- Processing a list of non-empty fragments equals scanning their
concatenation, provided the first fragment starts with `[` when the level is
0 and the level is non-zero at every fragment boundary. -/
theorem split_run (frags : List (List Char)) :
    ∀ st : ScanState,
      (∀ f ∈ frags, f ≠ []) →
      (st.level = 0 → frags.flatten.head? = some '[' ∨ frags = []) →
      (∀ k : Nat, k < frags.length → 0 < k →
        (scanChunk st ((frags.take k).flatten)).level ≠ 0) →
      runChunks st frags = .ok (scanChunk st frags.flatten) := by
  induction frags with
  | nil =>
    intro st _ _ _
    rfl
  | cons f fs ih =>
    intro st hne h0 hbd
    have hf : f ≠ [] := hne f (by simp)
    have hok : processChunk st f = .ok (scanChunk st f) := by
      apply pc_ok
      by_cases hl : st.level = 0
      · right
        rcases h0 hl with h | h
        · cases f with
          | nil => exact absurd rfl hf
          | cons c f' =>
            simp only [List.flatten_cons, List.cons_append, List.head?_cons] at h ⊢
            exact h
        · simp at h
      · exact Or.inl hl
    have h0' : (scanChunk st f).level = 0 → fs.flatten.head? = some '[' ∨ fs = [] := by
      intro hl0
      cases fs with
      | nil => exact Or.inr rfl
      | cons g gs =>
        exfalso
        have hb := hbd 1 (by simp) (by omega)
        simp only [List.take_succ_cons, List.take_zero, List.flatten_cons, List.flatten_nil,
          List.append_nil] at hb
        exact hb hl0
    have hbd' : ∀ k : Nat, k < fs.length → 0 < k →
        (scanChunk (scanChunk st f) ((fs.take k).flatten)).level ≠ 0 := by
      intro k hk hk0
      have hb := hbd (k + 1) (by simpa using Nat.succ_lt_succ hk) (by omega)
      simp only [List.take_succ_cons, List.flatten_cons] at hb
      rw [scan_append] at hb
      exact hb
    have hrec := ih (scanChunk st f) (fun g hg => hne g (by simp [hg])) h0' hbd'
    show runChunks st (f :: fs) = _
    simp only [runChunks, hok]
    rw [hrec, List.flatten_cons, scan_append]

/-! ### The queue is write-only for the scanner: shifting `ready` -/

/-- `processChar` never reads `_ready_objs`; it only appends to it. -/
theorem readyShift_char (L : Int) (bb : Bool) (o : List Char) (c : Char)
    (r : List (List Char)) :
    processChar ⟨L, bb, o, r⟩ c =
      ⟨(processChar ⟨L, bb, o, []⟩ c).level, (processChar ⟨L, bb, o, []⟩ c).inString,
        (processChar ⟨L, bb, o, []⟩ c).obj, r ++ (processChar ⟨L, bb, o, []⟩ c).ready⟩ := by
  unfold processChar
  split_ifs <;> try simp_all
  split <;> simp_all

/-- `scanChunk` never reads `_ready_objs`; it only appends to it. -/
theorem readyShift_scan (s : List Char) :
    ∀ (L : Int) (bb : Bool) (o : List Char) (r : List (List Char)),
      scanChunk ⟨L, bb, o, r⟩ s =
        ⟨(scanChunk ⟨L, bb, o, []⟩ s).level, (scanChunk ⟨L, bb, o, []⟩ s).inString,
          (scanChunk ⟨L, bb, o, []⟩ s).obj, r ++ (scanChunk ⟨L, bb, o, []⟩ s).ready⟩ := by
  induction s with
  | nil => intro L bb o r; simp [scan_nil]
  | cons c cs ih =>
    intro L bb o r
    rw [scan_cons, scan_cons, readyShift_char]
    cases hu : processChar ⟨L, bb, o, []⟩ c with
    | mk L1 b1 o1 d1 =>
      show scanChunk ⟨L1, b1, o1, r ++ d1⟩ cs = _
      rw [ih L1 b1 o1 (r ++ d1), ih L1 b1 o1 d1]
      simp

/-- `runChunks` never reads `_ready_objs`: its outcome (including the state an
error carries) is the outcome from an empty initial queue with the initial
queue contents prepended. -/
theorem readyShift_run (fs : List (List Char)) :
    ∀ (L : Int) (bb : Bool) (o : List Char) (r : List (List Char)),
      runChunks ⟨L, bb, o, r⟩ fs =
        match runChunks ⟨L, bb, o, []⟩ fs with
        | .ok u => .ok ⟨u.level, u.inString, u.obj, r ++ u.ready⟩
        | .error (e, u) => .error (e, ⟨u.level, u.inString, u.obj, r ++ u.ready⟩) := by
  induction fs with
  | nil => intro L bb o r; simp [runChunks]
  | cons f fs ih =>
    intro L bb o r
    show runChunks ⟨L, bb, o, r⟩ (f :: fs) = _
    by_cases hl : L = 0
    · cases f with
      | nil =>
        subst hl
        simp [runChunks, processChunk]
      | cons c f' =>
        by_cases hc : c = '['
        · subst hc
          have hpc : ∀ r2 : List (List Char),
              processChunk ⟨L, bb, o, r2⟩ ('[' :: f')
                = .ok (scanChunk ⟨L, bb, o, r2⟩ ('[' :: f')) := by
            intro r2
            unfold processChunk
            simp [hl]
          simp only [runChunks, hpc]
          rw [readyShift_scan]
          cases hu : scanChunk ⟨L, bb, o, []⟩ ('[' :: f') with
          | mk L1 b1 o1 d1 =>
            show runChunks ⟨L1, b1, o1, r ++ d1⟩ fs = _
            rw [ih L1 b1 o1 (r ++ d1), ih L1 b1 o1 d1]
            cases hrv : runChunks ⟨L1, b1, o1, []⟩ fs with
            | ok u => cases u with
              | mk L2 b2 o2 d2 => simp
            | error e =>
              obtain ⟨e1, u⟩ := e
              cases u with
              | mk L2 b2 o2 d2 => simp
        · have hpc : ∀ r2 : List (List Char),
              processChunk ⟨L, bb, o, r2⟩ (c :: f')
                = .error (.malformed (c :: f'), ⟨L, bb, o, r2⟩) := by
            intro r2
            unfold processChunk
            simp [hl, hc]
          simp only [runChunks, hpc]
          simp
    · have hpc : ∀ r2 : List (List Char),
          processChunk ⟨L, bb, o, r2⟩ f = .ok (scanChunk ⟨L, bb, o, r2⟩ f) := by
        intro r2
        unfold processChunk
        simp [hl]
      simp only [runChunks, hpc]
      rw [readyShift_scan]
      cases hu : scanChunk ⟨L, bb, o, []⟩ f with
      | mk L1 b1 o1 d1 =>
        show runChunks ⟨L1, b1, o1, r ++ d1⟩ fs = _
        rw [ih L1 b1 o1 (r ++ d1), ih L1 b1 o1 d1]
        cases hrv : runChunks ⟨L1, b1, o1, []⟩ fs with
        | ok u => cases u with
          | mk L2 b2 o2 d2 => simp
        | error e =>
          obtain ⟨e1, u⟩ := e
          cases u with
          | mk L2 b2 o2 d2 => simp

/-! ### `__next__` loop lemmas -/

theorem nl_ready (scan : ScanState) (closed : Bool) (src : List (List Char))
    (o : List Char) (rest : List (List Char)) (h : scan.ready = o :: rest) :
    nextLoop scan closed src = .value o { scan with ready := rest } src := by
  cases src <;> simp [nextLoop, h]

theorem nl_empty_nil (scan : ScanState) (closed : Bool) (h : scan.ready = []) :
    nextLoop scan closed [] = .stop := by
  simp [nextLoop, h]

theorem nl_empty_closed (scan : ScanState) (c : List Char) (cs : List (List Char))
    (h : scan.ready = []) : nextLoop scan true (c :: cs) = .stop := by
  simp [nextLoop, h]

theorem nl_step (scan st' : ScanState) (c : List Char) (cs : List (List Char))
    (h : scan.ready = []) (hpc : processChunk scan c = .ok st') :
    nextLoop scan false (c :: cs) = nextLoop st' false cs := by
  simp [nextLoop, h, hpc]

theorem nl_fail (scan : ScanState) (e : StreamError × ScanState) (c : List Char)
    (cs : List (List Char)) (h : scan.ready = []) (hpc : processChunk scan c = .error e) :
    nextLoop scan false (c :: cs) = .fail e.1 e.2 cs := by
  simp [nextLoop, h, hpc]

/-- One `__next__` call against a fragment source whose full processing
succeeds: either the queue stays empty to the end (`StopIteration`), or the
call returns the head of the final queue and leaves a state/source whose
processing delivers the tail. -/
theorem nextLoop_of_run (frags : List (List Char)) :
    ∀ (scan st' : ScanState), runChunks scan frags = .ok st' →
      (st'.ready = [] ∧ nextLoop scan false frags = .stop) ∨
      (∃ o scan2 frags2 st2,
        nextLoop scan false frags = .value o scan2 frags2 ∧
        frags2.length ≤ frags.length ∧
        runChunks scan2 frags2 = .ok st2 ∧
        st'.ready = o :: st2.ready) := by
  induction frags with
  | nil =>
    intro scan st' hrun
    have hst : scan = st' := by
      simpa [runChunks] using hrun
    subst hst
    cases hr : scan.ready with
    | nil => exact Or.inl ⟨rfl, nl_empty_nil _ _ hr⟩
    | cons o rest =>
      right
      refine ⟨o, { scan with ready := rest }, [], { scan with ready := rest },
        nl_ready _ _ _ _ _ hr, le_refl _, rfl, by simp [hr]⟩
  | cons f fs ih =>
    intro scan st' hrun
    obtain ⟨L, bb, ob, rd⟩ := scan
    cases rd with
    | cons o rest =>
      right
      rw [readyShift_run] at hrun
      cases hb : runChunks ⟨L, bb, ob, []⟩ (f :: fs) with
      | error e =>
        obtain ⟨e1, u⟩ := e
        rw [hb] at hrun
        simp at hrun
      | ok u =>
        rw [hb] at hrun
        simp only [Except.ok.injEq] at hrun
        refine ⟨o, ⟨L, bb, ob, rest⟩, f :: fs, ⟨u.level, u.inString, u.obj, rest ++ u.ready⟩,
          nl_ready _ _ _ _ _ rfl, le_refl _, ?_, ?_⟩
        · rw [readyShift_run, hb]
        · rw [← hrun]
          simp
    | nil =>
      cases hpc : processChunk ⟨L, bb, ob, []⟩ f with
      | error e =>
        simp only [runChunks, hpc] at hrun
        simp at hrun
      | ok s1 =>
        simp only [runChunks, hpc] at hrun
        have hnext := nl_step ⟨L, bb, ob, []⟩ s1 f fs rfl hpc
        rcases ih s1 st' hrun with ⟨hre, hstop⟩ |
          ⟨o, scan2, frags2, st2, hv, hlen, hrun2, hready⟩
        · exact Or.inl ⟨hre, by rw [hnext]; exact hstop⟩
        · exact Or.inr ⟨o, scan2, frags2, st2, by rw [hnext]; exact hv,
            le_trans hlen (by simp), hrun2, hready⟩

/-- Adequacy of `drain`: with enough fuel, repeatedly calling `__next__`
against a fragment source whose processing succeeds delivers exactly the
final queue contents, in order (FIFO). -/
theorem drain_of_run (fuel : Nat) :
    ∀ (frags : List (List Char)) (scan st' : ScanState),
      runChunks scan frags = .ok st' →
      frags.length + st'.ready.length < fuel →
      drain fuel scan false frags = some (Sum.inl st'.ready) := by
  induction fuel with
  | zero =>
    intro frags scan st' _ h
    omega
  | succ n ih =>
    intro frags scan st' hrun hfuel
    rcases nextLoop_of_run frags scan st' hrun with ⟨hre, hstop⟩ |
      ⟨o, scan2, frags2, st2, hv, hlen, hrun2, hready⟩
    · rw [hre]
      simp [drain, hstop]
    · have hlt : frags2.length + st2.ready.length < n := by
        rw [hready] at hfuel
        simp only [List.length_cons] at hfuel
        omega
      have hrec := ih frags2 scan2 st2 hrun2 hlt
      simp [drain, hv, hrec, hready]

/-! ### Fragmentation helpers -/

theorem flatten_map_singleton (t : List Char) : (t.map fun c => [c]).flatten = t := by
  induction t with
  | nil => rfl
  | cons c cs ih => simp [ih]

theorem flatten_take_ne (frags : List (List Char)) (k : Nat)
    (hk0 : 0 < k) (hne : ∀ f ∈ frags, f ≠ []) (hlen : 0 < frags.length) :
    (frags.take k).flatten ≠ [] := by
  cases frags with
  | nil => simp at hlen
  | cons f fs =>
    cases k with
    | zero => omega
    | succ k =>
      simp only [List.take_succ_cons, List.flatten_cons]
      have hf : f ≠ [] := hne f (by simp)
      cases f with
      | nil => exact absurd rfl hf
      | cons c f' => simp

theorem flatten_drop_ne (frags : List (List Char)) (k : Nat)
    (hk : k < frags.length) (hne : ∀ f ∈ frags, f ≠ []) :
    (frags.drop k).flatten ≠ [] := by
  cases hd : frags.drop k with
  | nil =>
    have h1 : frags.length - k = 0 := by
      rw [← List.length_drop, hd]
      rfl
    omega
  | cons g rest =>
    have hg : g ∈ frags := by
      have hmem : g ∈ frags.drop k := by rw [hd]; simp
      exact List.mem_of_mem_drop hmem
    have hgne := hne g hg
    cases g with
    | nil => exact absurd rfl hgne
    | cons c g' => simp

/-! ### Claims -/

/-- C3 counterexample: the claim says every character occurring while
`inString` is true leaves `depth` unchanged and is appended verbatim.  At the
concrete in-string state `⟨1, true, "x", []⟩`, processing `[` increments the
level from 1 to 2 and drops the character, and processing `{` erases the
accumulated buffer before appending (the level-1 reset does not check
`inString`). -/
theorem c3_counterexample :
    processChar ⟨1, true, ['x'], []⟩ '[' = ⟨2, true, ['x'], []⟩ ∧
    processChar ⟨1, true, ['x'], []⟩ '{' = ⟨1, true, ['{'], []⟩ := by
  constructor <;> rfl

/-- C3 (amended): while `inString` is true, every character other than `[`
and `]` leaves the level unchanged and is appended verbatim to the buffer
(with the exception that `{` at level 1 first resets the buffer); `[` and `]`
inside strings still increment resp. decrement the level and are never
appended. -/
theorem c3_amended (st : ScanState) (c : Char) (hin : st.inString = true) :
    (c ≠ '[' → c ≠ ']' →
      (processChar st c).level = st.level ∧
      (processChar st c).obj = (if c = '{' ∧ st.level = 1 then [] else st.obj) ++ [c]) ∧
    processChar st '[' = { st with level := st.level + 1 } ∧
    processChar st ']' = { st with level := st.level - 1 } := by
  refine ⟨?_, step_lbrack st, step_rbrack st⟩
  intro h5 h6
  by_cases h1 : c = '{'
  · subst h1
    by_cases hl : st.level = 1
    · constructor
      · simp [processChar, hin, hl]
      · simp [processChar, hin, hl]
    · rw [step_lbrace_instr st hin hl]
      constructor
      · rfl
      · simp [hl]
  · by_cases h2 : c = '"'
    · subst h2
      rw [step_quote]
      refine ⟨rfl, ?_⟩
      simp [h1]
    · by_cases h3 : c = '}'
      · subst h3
        rw [step_rbrace_in st hin]
        refine ⟨rfl, ?_⟩
        simp [h1]
      · by_cases hw : isPyWhitespace c = true
        · rw [step_ws_in st c hw hin]
          refine ⟨rfl, ?_⟩
          simp [h1]
        · rw [step_other st c h1 h2 h3 (by simpa using hw) h5 h6]
          refine ⟨rfl, ?_⟩
          simp [h1]

/-- C3 witness: a concrete in-string state and an ordinary character. -/
theorem c3_witness :
    (processChar ⟨2, true, ['a'], []⟩ 'x').level = (⟨2, true, ['a'], []⟩ : ScanState).level ∧
    (processChar ⟨2, true, ['a'], []⟩ 'x').obj =
      (if 'x' = '{' ∧ (⟨2, true, ['a'], []⟩ : ScanState).level = 1 then []
        else (⟨2, true, ['a'], []⟩ : ScanState).obj) ++ ['x'] :=
  (c3_amended ⟨2, true, ['a'], []⟩ 'x' rfl).1 (by decide) (by decide)

/-- C4 (confirmed): a queue entry is produced exactly when a `}` is processed
outside a string and the decremented level equals 1, and the entry is the
accumulated buffer with that `}` appended.  Consequently a fragment
containing no `}` appends nothing to the queue. -/
theorem c4_emission :
    (∀ (st : ScanState) (c : Char),
      (processChar st c).ready =
        if c = '}' ∧ st.inString = false ∧ st.level - 1 = 1
        then st.ready ++ [st.obj ++ ['}']] else st.ready) ∧
    (∀ (st : ScanState) (s : List Char), '}' ∉ s → (scanChunk st s).ready = st.ready) := by
  have hchar : ∀ (st : ScanState) (c : Char),
      (processChar st c).ready =
        if c = '}' ∧ st.inString = false ∧ st.level - 1 = 1
        then st.ready ++ [st.obj ++ ['}']] else st.ready := by
    intro st c
    by_cases h3 : c = '}'
    · subst h3
      by_cases hin : st.inString = true
      · rw [step_rbrace_in st hin]
        simp [hin]
      · have hin' : st.inString = false := by simpa using hin
        rw [step_rbrace_out st hin']
        simp [hin']
    · have hr : (processChar st c).ready = st.ready := by
        unfold processChar
        split_ifs <;> simp_all
      simp [hr, h3]
  refine ⟨hchar, ?_⟩
  intro st s
  induction s generalizing st with
  | nil => intro _; rfl
  | cons c cs ih =>
    intro hmem
    have hc : c ≠ '}' := by
      intro h
      exact hmem (by simp [h])
    have h1 : (processChar st c).ready = st.ready := by
      rw [hchar]
      simp [hc]
    rw [scan_cons, ih (processChar st c) (fun hm => hmem (List.mem_cons_of_mem _ hm)), h1]

/-- C4 witness: at level 2 outside a string, `}` pushes the finished object;
a brace-free fragment pushes nothing. -/
theorem c4_witness :
    (processChar ⟨2, false, ['{', 'x'], [['q']]⟩ '}').ready = [['q'], ['{', 'x', '}']] ∧
    (scanChunk ⟨2, false, ['{', 'x'], [['q']]⟩ ['a', 'b']).ready = [['q']] := by
  constructor
  · rw [c4_emission.1 ⟨2, false, ['{', 'x'], [['q']]⟩ '}']
    decide
  · rw [c4_emission.2 ⟨2, false, ['{', 'x'], [['q']]⟩ ['a', 'b'] (by decide)]

/-- C6 counterexample: the claim says the malformed-stream error fires only on
the very first fragment and only when the first NON-WHITESPACE character is
not `[`.  In the code, `" ["` already raises on the very first fragment even
though its first non-whitespace character is `[` (the check reads `chunk[0]`
literally), and after `"[{}]"` has been fully consumed (level back to 0, one
object already delivered to the queue) a further fragment `"{"` raises again. -/
theorem c6_counterexample :
    processChunk initState [' ', '['] = .error (.malformed [' ', '['], initState) ∧
    runChunks initState [['[', '{', '}', ']']] = .ok ⟨0, false, ['{', '}'], [['{', '}']]⟩ ∧
    processChunk ⟨0, false, ['{', '}'], [['{', '}']]⟩ ['{']
      = .error (.malformed ['{'], ⟨0, false, ['{', '}'], [['{', '}']]⟩) := by
  refine ⟨rfl, rfl, rfl⟩

/-- C6 (amended): `_process_chunk` raises if and only if the level is 0 at the
time of the call (first fragment or not) and the fragment's literal first
character is not `[` (an empty fragment at level 0 raises the index error
instead of the `ValueError`); a fragment processed at non-zero level never
raises; every error leaves the state as it was (no value is produced first). -/
theorem c6_amended (st : ScanState) (chunk : List Char) :
    ((∃ e, processChunk st chunk = .error e) ↔ st.level = 0 ∧ chunk.head? ≠ some '[') ∧
    (∀ c cs, chunk = c :: cs →
      processChunk st chunk = .error (.malformed chunk, st) ∨
      processChunk st chunk = .ok (scanChunk st chunk)) ∧
    (chunk = [] → st.level = 0 → processChunk st chunk = .error (.indexError, st)) := by
  refine ⟨⟨?_, ?_⟩, ?_, ?_⟩
  · rintro ⟨e, he⟩
    unfold processChunk at he
    by_cases hl : st.level = 0
    · refine ⟨hl, ?_⟩
      cases chunk with
      | nil => simp
      | cons c cs =>
        by_cases hc : c = '['
        · subst hc
          simp [hl] at he
        · simp [hc]
    · rw [if_neg hl] at he
      simp at he
  · rintro ⟨hl, hhd⟩
    unfold processChunk
    rw [if_pos hl]
    cases chunk with
    | nil => exact ⟨(.indexError, st), rfl⟩
    | cons c cs =>
      have hc : c ≠ '[' := by
        intro h
        subst h
        exact hhd rfl
      exact ⟨(.malformed (c :: cs), st), by simp [hc]⟩
  · intro c cs hchunk
    subst hchunk
    unfold processChunk
    by_cases hl : st.level = 0
    · by_cases hc : c = '['
      · subst hc
        right
        simp [hl]
      · left
        simp [hl, hc]
    · right
      simp [hl]
  · intro h1 h2
    subst h1
    unfold processChunk
    simp [h2]

/-- C6 witness: at the initial state a fragment `"x"` satisfies the amended
error condition and indeed raises. -/
theorem c6_witness :
    (initState.level = 0 ∧ (['x'] : List Char).head? ≠ some '[') ∧
    (∃ e, processChunk initState ['x'] = .error e) :=
  ⟨⟨rfl, by decide⟩, (c6_amended initState ['x']).1.mpr ⟨rfl, by decide⟩⟩

/-- C7 counterexample: the claim says an empty fragment is a total no-op in
every state.  At the initial state (level 0) the code evaluates `chunk[0]`
and raises `IndexError`. -/
theorem c7_counterexample :
    processChunk initState [] = .error (.indexError, initState) := rfl

/-- C7 (amended): an empty fragment is a no-op — no error, state untouched —
whenever the level is non-zero; at level 0 it raises the index error of
`chunk[0]` (with the state unchanged). -/
theorem c7_amended (st : ScanState) :
    (st.level ≠ 0 → processChunk st [] = .ok st) ∧
    (st.level = 0 → processChunk st [] = .error (.indexError, st)) := by
  constructor
  · intro h
    unfold processChunk
    simp [h]
    rfl
  · intro h
    unfold processChunk
    simp [h]

/-- C7 witness: an empty fragment at level 1 is a no-op. -/
theorem c7_witness :
    processChunk ⟨1, false, [], []⟩ [] = .ok ⟨1, false, [], []⟩ :=
  (c7_amended ⟨1, false, [], []⟩).1 (by decide)

/-- C9 counterexample: the claim says the level is a non-negative invariant
for every fragment sequence.  Feeding the single fragment `"[]]"` (accepted
by the level-0 check since it starts with `[`) drives the level to −1. -/
theorem c9_counterexample :
    runChunks initState [['[', ']', ']']] = .ok ⟨-1, false, [], []⟩ := rfl

/-- C9 (amended): along any character prefix of a well-formed array-of-objects
text (restricted grammar `ArrayText`) the level stays non-negative; on
ill-bracketed input it can go negative. -/
theorem c9_amended (t : List Char) (es : List (List Char)) (hA : ArrayText es t)
    (p q : List Char) (hpq : p ++ q = t) :
    0 ≤ (scanChunk initState p).level :=
  (scan_array t es hA).2.1 p q hpq

/-- C9 witness: the prefix `"[{"` of `"[{}]"`. -/
theorem c9_witness : 0 ≤ (scanChunk initState ['[', '{']).level :=
  c9_amended ['[', '{', '}', ']'] [['{', '}']]
    ⟨['{', '}'],
      ElemSeq.cons [] ['{', '}'] [] [] (by decide) ⟨[], Body.nil, rfl⟩
        (ElemSeq.nil [] (by decide)),
      rfl⟩
    ['[', '{'] ['}', ']'] rfl

/-- C10 (confirmed): whenever `_process_chunk` raises, it raises before
consuming any character: the state carried at the moment of the raise is
exactly the state on entry — level, string-flag, buffer and queue included. -/
theorem c10_atomicity (st : ScanState) (chunk : List Char) (e : StreamError)
    (st' : ScanState) (h : processChunk st chunk = .error (e, st')) :
    st' = st := by
  unfold processChunk at h
  by_cases hl : st.level = 0
  · rw [if_pos hl] at h
    cases chunk with
    | nil =>
      simp only [Except.error.injEq, Prod.mk.injEq] at h
      exact h.2.symm
    | cons c cs =>
      by_cases hc : c = '['
      · simp [hc] at h
      · simp only [if_neg hc, Except.error.injEq, Prod.mk.injEq] at h
        exact h.2.symm
  · rw [if_neg hl] at h
    simp at h

/-- C10 witness: the malformed-stream error at a state with non-trivial
buffer and queue leaves that state intact. -/
theorem c10_witness :
    (⟨0, true, ['a'], [['q']]⟩ : ScanState) = ⟨0, true, ['a'], [['q']]⟩ :=
  c10_atomicity ⟨0, true, ['a'], [['q']]⟩ ['x'] (.malformed ['x'])
    ⟨0, true, ['a'], [['q']]⟩ rfl

/-- C2 counterexample: the claim says 1-character fragments and one whole
fragment always produce identical outcomes.  For the text `"[]x"` the whole
fragment passes the level-0 check (its first character is `[`) and succeeds,
while the split run raises on the third fragment `"x"`, because after `"[]"`
the level is back to 0 and the check fires again. -/
theorem c2_counterexample :
    runChunks initState [['[', ']', 'x']] = .ok ⟨0, false, ['x'], []⟩ ∧
    runChunks initState [['['], [']'], ['x']]
      = .error (.malformed ['x'], ⟨0, false, [], []⟩) := by
  refine ⟨rfl, rfl⟩

/-- C2 (amended): splitting into 1-character fragments and processing the
whole text as one fragment agree — both succeeding with the same final state —
provided the text begins with `[` and the level is non-zero at every interior
character boundary (the level returning to 0 only at the very end, as on any
well-formed input). -/
theorem c2_amended (t : List Char) (h1 : t.head? = some '[')
    (h2 : ∀ k : Nat, k < t.length → 0 < k → (scanChunk initState (t.take k)).level ≠ 0) :
    runChunks initState (t.map fun c => [c]) = .ok (scanChunk initState t) ∧
    runChunks initState [t] = .ok (scanChunk initState t) := by
  constructor
  · have hj := flatten_map_singleton t
    have hsplit := split_run (t.map fun c => [c]) initState ?_ ?_ ?_
    · rw [hj] at hsplit
      exact hsplit
    · intro f hf
      simp only [List.mem_map] at hf
      obtain ⟨c, _, rfl⟩ := hf
      simp
    · intro _
      left
      rw [hj]
      exact h1
    · intro k hk hk0
      have htk : ((t.map fun c => [c]).take k).flatten = t.take k := by
        rw [← List.map_take, flatten_map_singleton]
      rw [htk]
      exact h2 k (by simpa using hk) hk0
  · have hok := pc_ok initState t (Or.inr h1)
    simp only [runChunks, hok]

/-- C2 witness: the well-formed text `"[{}]"`. -/
theorem c2_witness :
    runChunks initState (['[', '{', '}', ']'].map fun c => [c])
      = .ok (scanChunk initState ['[', '{', '}', ']']) ∧
    runChunks initState [['[', '{', '}', ']']]
      = .ok (scanChunk initState ['[', '{', '}', ']']) :=
  c2_amended ['[', '{', '}', ']'] rfl (by decide)

/-- C1 counterexample: the claim quantifies over all well-formed JSON arrays
of objects and all fragmentations.  Six concrete runs refute it as stated:
(1) `[{"a":"\""}]` (escaped quote in a string) delivers nothing — the quote
toggle ignores the backslash and string tracking derails;
(2) `[{"a":[1,2]}]` (nested array) delivers the altered text `{"a":1,2}` —
bracket characters are never appended;
(3) `[{"a": 1}]` delivers `{"a":1}`, not the element text — whitespace
outside strings is dropped;
(4) a zero-length first fragment raises the index error before anything is
delivered, so fragmentations with empty pieces fail;
(5) `" [{}]"` (leading whitespace, still a well-formed JSON document) raises
the malformed-stream error, because the check reads the literal first
character;
(6) `[{"a":"["}]` (bracket inside a string) delivers nothing — the bracket
wrongly raises the level even inside a string. -/
theorem c1_counterexample :
    drain 2 initState false [['[', '{', '"', 'a', '"', ':', '"', '\\', '"', '"', '}', ']']]
      = some (Sum.inl []) ∧
    drain 3 initState false [['[', '{', '"', 'a', '"', ':', '[', '1', ',', '2', ']', '}', ']']]
      = some (Sum.inl [['{', '"', 'a', '"', ':', '1', ',', '2', '}']]) ∧
    drain 3 initState false [['[', '{', '"', 'a', '"', ':', ' ', '1', '}', ']']]
      = some (Sum.inl [['{', '"', 'a', '"', ':', '1', '}']]) ∧
    drain 2 initState false [[], ['[', '{', '}', ']']]
      = some (Sum.inr (.indexError, initState)) ∧
    drain 2 initState false [[' ', '[', '{', '}', ']']]
      = some (Sum.inr (.malformed [' ', '[', '{', '}', ']'], initState)) ∧
    drain 2 initState false [['[', '{', '"', 'a', '"', ':', '"', '[', '"', '}', ']']]
      = some (Sum.inl []) := by
  refine ⟨rfl, rfl, rfl, rfl, rfl, rfl⟩

/-- C1 (amended): for every input text of the restricted well-formed grammar
`ArrayText` — a `[`-led array of balanced objects whose strings contain no
backslashes, with no square brackets and no out-of-string whitespace inside
elements — and for every way of splitting that text into non-empty fragments,
repeated `__next__` calls deliver exactly the element texts, in original
order, each exactly once, appended at their closing brace and dequeued FIFO. -/
theorem c1_amended (t : List Char) (es frags : List (List Char))
    (hA : ArrayText es t) (hJ : frags.flatten = t) (hNE : ∀ f ∈ frags, f ≠ []) :
    drain (frags.length + es.length + 1) initState false frags = some (Sum.inl es) := by
  obtain ⟨⟨o2, hfin⟩, hnneg, hpos⟩ := scan_array t es hA
  have hlenpos : 0 < frags.length := by
    cases frags with
    | nil =>
      exfalso
      obtain ⟨mid, _, rfl⟩ := hA
      simp at hJ
    | cons f fs => simp
  have hrun : runChunks initState frags = .ok (scanChunk initState t) := by
    have hsplit := split_run frags initState hNE ?_ ?_
    · rw [hJ] at hsplit
      exact hsplit
    · intro _
      left
      rw [hJ]
      obtain ⟨mid, _, rfl⟩ := hA
      rfl
    · intro k hk hk0
      have hpq : (frags.take k).flatten ++ (frags.drop k).flatten = t := by
        rw [← List.flatten_append, List.take_append_drop, hJ]
      have hone := hpos _ _ hpq (flatten_take_ne frags k hk0 hNE hlenpos)
        (flatten_drop_ne frags k hk hNE)
      intro hzero
      rw [hzero] at hone
      omega
  rw [hfin] at hrun
  have hdr := drain_of_run (frags.length + es.length + 1) frags initState
    ⟨0, false, o2, es⟩ hrun ?_
  · exact hdr
  · show frags.length + es.length < frags.length + es.length + 1
    omega

/-- C1 witness: `"[{},{}]"` split as `"[{"` and `"},{}]"` delivers the two
element texts in order. -/
theorem c1_witness :
    drain 5 initState false [['[', '{'], ['}', ',', '{', '}', ']']]
      = some (Sum.inl [['{', '}'], ['{', '}']]) :=
  c1_amended ['[', '{', '}', ',', '{', '}', ']'] [['{', '}'], ['{', '}']]
    [['[', '{'], ['}', ',', '{', '}', ']']]
    ⟨['{', '}', ',', '{', '}'],
      ElemSeq.cons [] ['{', '}'] [',', '{', '}'] [['{', '}']] (by decide)
        ⟨[], Body.nil, rfl⟩
        (ElemSeq.cons [','] ['{', '}'] [] [] (by decide) ⟨[], Body.nil, rfl⟩
          (ElemSeq.nil [] (by decide))),
      rfl⟩
    rfl (by decide)

/-- C5 (code bug): the spec's own scenario — fragments `"[{" `, `"\"a\":1}]"` —
queues exactly the object text `{"a":1}`, but `_grab` then raises instead of
returning a decoded value: it wraps the text in quotes and calls
`json.loads('"{"a":1}"')`, whose added quote terminates at the object's first
own quote, leaving extra data (a `JSONDecodeError`).  The code's comment says
the quotes are added "to make json.loads happy", so the decode step is meant
to succeed; it only does for quote-free texts such as `{}` (third conjunct),
i.e. for essentially no real JSON object. -/
theorem c5_decode_fails :
    runChunks initState [['[', '{'], ['"', 'a', '"', ':', '1', '}', ']']]
      = .ok ⟨0, false, ['{', '"', 'a', '"', ':', '1', '}'],
          [['{', '"', 'a', '"', ':', '1', '}']]⟩ ∧
    grab (fun s => s) ⟨0, false, ['{', '"', 'a', '"', ':', '1', '}'],
        [['{', '"', 'a', '"', ':', '1', '}']]⟩
      = .error (.jsonDecodeError ['{', '"', 'a', '"', ':', '1', '}'],
          ⟨0, false, ['{', '"', 'a', '"', ':', '1', '}'], []⟩) ∧
    jsonLoadsString ('"' :: (['{', '}'] ++ ['"'])) = some ['{', '}'] := by
  refine ⟨rfl, rfl, rfl⟩

/-- C8 counterexample: the claim says every `next()` after `cancel()` returns
end-of-sequence, never a value.  Cancel after the single fragment `"[{},{}]"`
has been processed (two objects queued): `cancel` only closes the response —
it touches neither the queue nor any terminal flag — and the next `__next__`
call still returns the first queued object. -/
theorem c8_counterexample :
    (cancel ⟨[], false, ⟨0, false, ['{', '}'], [['{', '}'], ['{', '}']]⟩⟩).closed = true ∧
    nextLoop (cancel ⟨[], false, ⟨0, false, ['{', '}'], [['{', '}'], ['{', '}']]⟩⟩).scan
        (cancel ⟨[], false, ⟨0, false, ['{', '}'], [['{', '}'], ['{', '}']]⟩⟩).closed
        (cancel ⟨[], false, ⟨0, false, ['{', '}'], [['{', '}'], ['{', '}']]⟩⟩).source
      = .value ['{', '}'] ⟨0, false, ['{', '}'], [['{', '}']]⟩ [] := by
  refine ⟨rfl, rfl⟩

/-- C8 (amended): `cancel()` (a plain `response.close()`) is idempotent and
never raises, and with the closed source yielding no further fragments a
subsequent `next()` returns end-of-sequence once the queue is empty — but
objects already queued at cancellation time are still returned first. -/
theorem c8_amended (it : IterState) :
    cancel (cancel it) = cancel it ∧
    ((cancel it).scan.ready = [] →
      nextLoop (cancel it).scan (cancel it).closed (cancel it).source = .stop) ∧
    (∀ o rest, it.scan.ready = o :: rest →
      nextLoop (cancel it).scan (cancel it).closed (cancel it).source
        = .value o { it.scan with ready := rest } (cancel it).source) := by
  refine ⟨rfl, ?_, ?_⟩
  · intro h
    cases hsrc : (cancel it).source with
    | nil => exact nl_empty_nil _ _ h
    | cons c cs => exact nl_empty_closed _ c cs h
  · intro o rest h
    exact nl_ready _ _ _ o rest h

/-- C8 witness: cancelling right after construction (empty queue, source still
pending) makes the next `next()` stop. -/
theorem c8_witness :
    cancel (cancel ⟨[['[', '{']], false, initState⟩)
      = cancel ⟨[['[', '{']], false, initState⟩ ∧
    nextLoop (cancel ⟨[['[', '{']], false, initState⟩).scan
        (cancel ⟨[['[', '{']], false, initState⟩).closed
        (cancel ⟨[['[', '{']], false, initState⟩).source = .stop :=
  ⟨(c8_amended ⟨[['[', '{']], false, initState⟩).1,
    (c8_amended ⟨[['[', '{']], false, initState⟩).2.1 rfl⟩
